import Mathlib

/-
Verification of the EVD PDF line-reassembly parser (src/pdf_parser.py) against
its specification.  Strings are modelled as `List Char`; the Python regexes
`KEY_RE`, `PACK_HEADER_RE` and `SEGMENT_HEADER_RE` are embedded as executable
matching functions; Python dicts are modelled as insertion-ordered association
lists; the `while` loop of `parse_segment` is modelled with explicit fuel so
that non-termination of the source loop is observable as `none`.
Unicode-only corner cases of Python (non-ASCII case folding such as ı→I, and
non-ASCII word characters in `\b`) are approximated by their ASCII behaviour;
all claims below are insensitive to that approximation.
-/

set_option maxRecDepth 4000

namespace EvdPdf

abbrev Line := List Char

abbrev Dict := List (Line × Line)

/-- Whitespace class used by Python `str.strip()` and the regex class `\s`
(ASCII whitespace plus the Unicode whitespace characters). -/
def pyIsSpace (c : Char) : Bool :=
  decide (c ∈ ([' ', '\t', '\n', '\r', '\u000b', '\u000c',
    '\u001c', '\u001d', '\u001e', '\u001f', '\u0085', ' ',
    ' ', ' ', ' ', ' ', ' ', ' ', ' ',
    ' ', ' ', ' ', ' ', ' ',
    ' ', ' ', ' ', ' ', '　'] : List Char))

/-- The regex class `[A-Za-z]`. -/
def isAsciiLetter (c : Char) : Bool :=
  decide (('A' ≤ c ∧ c ≤ 'Z') ∨ ('a' ≤ c ∧ c ≤ 'z'))

/-- The regex class `\w` (ASCII approximation), used for `\b` boundaries. -/
def wordChar (c : Char) : Bool :=
  isAsciiLetter c || c.isDigit || decide (c = '_')

/-- ASCII lower-casing, as used by `str.lower()` / `re.IGNORECASE`. -/
def lowerAscii (c : Char) : Char :=
  if 'A' ≤ c ∧ c ≤ 'Z' then Char.ofNat (c.toNat + 32) else c

/-- ASCII upper-casing, as used by `str.upper()`. -/
def upperAscii (c : Char) : Char :=
  if 'a' ≤ c ∧ c ≤ 'z' then Char.ofNat (c.toNat - 32) else c

/-- Remove the trailing run of characters satisfying `p`. -/
def dropEndWhile (p : Char → Bool) (l : Line) : Line :=
  (l.reverse.dropWhile p).reverse

/-- Remove the leading and trailing runs of characters satisfying `p`
(Python `str.strip(chars)`). -/
def stripBoth (p : Char → Bool) (l : Line) : Line :=
  dropEndWhile p (l.dropWhile p)

/-- Model of `normalize_line(s) = s.strip().strip('"').strip()` from pdf_parser.py. -/
def normalize_line (l : Line) : Line :=
  stripBoth pyIsSpace (stripBoth (fun c => decide (c = '"')) (stripBoth pyIsSpace l))

/-- Line-boundary characters of Python `str.splitlines()` other than `'\r'`
(the source replaces `'\r'` with `'\n'` before splitting). -/
def isLineBreak (c : Char) : Bool :=
  decide (c ∈ (['\n', '\u000b', '\u000c', '\u001c', '\u001d', '\u001e',
    '\u0085', ' ', ' '] : List Char))

/-- Worker for `pySplitLines`: `acc` is the reversed current line. -/
def splitGo : List Char → List Char → List (List Char)
  | [], acc => [acc.reverse]
  | c :: rest, acc =>
    if isLineBreak c then
      acc.reverse :: (match rest with
        | [] => []
        | _ :: _ => splitGo rest [])
    else splitGo rest (c :: acc)

/-- Python `str.splitlines()` on text whose `'\r'` have been replaced:
no entry is produced after a trailing line break, and `"" → []`. -/
def pySplitLines (s : List Char) : List (List Char) :=
  match s with
  | [] => []
  | _ :: _ => splitGo s []

/-- Case-insensitive (ASCII) literal matching: returns the rest of the input
after the pattern, or `none`. -/
def matchCI : List Char → List Char → Option (List Char)
  | [], s => some s
  | _ :: _, [] => none
  | p :: ps, c :: cs => if lowerAscii c = lowerAscii p then matchCI ps cs else none

/-- The `\d+` following the `'.'` of the optional `(?:\.\d+)?` group of the
key / pack-header codes: on input with at least one leading digit, returns the
digit run and the remainder after it. -/
def dotSplitAfter (r2 : Line) : Option (Line × Line) :=
  let ds := r2.takeWhile Char.isDigit
  if ds.isEmpty then none else some (ds, r2.drop ds.length)

/-- Matcher for `KEY_RE = ^(17(?:\.\d+)?[A-Za-z])(?:\s+(.*))?$` applied with
`re.match`, returning the `(code, label)` pair built at pdf_parser.py:100-101
(the label falls back to the code when no label text follows). -/
def keyMatch (l : Line) : Option (Line × Line) :=
  match l with
  | a :: b :: rest =>
    if a = '1' ∧ b = '7' then
      let codeOpt : Option (Line × Line) :=
        match rest with
        | c :: r3 =>
          if c = '.' then
            match dotSplitAfter r3 with
            | some (ds, c2 :: r4) =>
              if isAsciiLetter c2 then
                some ('1' :: '7' :: '.' :: (ds ++ [c2]), r4)
              else none
            | _ => none
          else if isAsciiLetter c then some (['1', '7', c], r3) else none
        | [] => none
      match codeOpt with
      | none => none
      | some (code, after) =>
        match after with
        | [] => some (code, code)
        | c :: _ =>
          if pyIsSpace c then
            let lab := stripBoth pyIsSpace (after.dropWhile pyIsSpace)
            if lab.isEmpty then some (code, code) else some (code, lab)
          else none
    else none
  | _ => none

/-- Matcher for `PACK_HEADER_RE = ^(17(?:\.\d+)?)\s+PACKST[ÜU]CKE\b`
(case-insensitive) applied with `re.match`. -/
def packHeaderLine (l : Line) : Bool :=
  match l with
  | a :: b :: rest =>
    if a = '1' ∧ b = '7' then
      let afterCode : Option Line :=
        match rest with
        | c :: r2 =>
          if c = '.' then (dotSplitAfter r2).map (·.2) else some rest
        | [] => some rest
      match afterCode with
      | none => false
      | some r3 =>
        let ws := r3.takeWhile pyIsSpace
        if ws.isEmpty then false
        else
          match matchCI ("PACKST".data) (r3.drop ws.length) with
          | none => false
          | some r5 =>
            match r5 with
            | [] => false
            | u :: r6 =>
              if u ∈ (['Ü', 'ü', 'U', 'u'] : List Char) then
                match matchCI ("CKE".data) r6 with
                | none => false
                | some [] => true
                | some (c :: _) => !wordChar c
              else false
    else false
  | _ => false

/-- Matcher for `SEGMENT_HEADER_RE = (?im)^\s*"?\s*17 POSITIONSDATEN\b`
at the start of the given text (the `^` anchoring to a line start is handled
by the caller); returns the number of characters consumed. -/
def segHeaderAt (s : Line) : Option Nat :=
  let s1 := s.dropWhile pyIsSpace
  let s2 := match s1 with
    | '"' :: r => r.dropWhile pyIsSpace
    | _ => s1
  match matchCI ("17 POSITIONSDATEN".data) s2 with
  | none => none
  | some rest =>
    match rest with
    | [] => some (s.length - rest.length)
    | c :: _ => if wordChar c then none else some (s.length - rest.length)

/-- Test `SEGMENT_HEADER_RE.match(line)` as used on normalized lines inside
`parse_segment`. -/
def segHeaderLine (l : Line) : Bool :=
  (segHeaderAt l).isSome

/-- Whether position `p` of `raw` is a line start for multiline `^`
(position 0, or just after a `'\n'`). -/
def isLineStart (raw : Line) (p : Nat) : Bool :=
  decide (p = 0) || decide (raw[p - 1]? = some '\n')

/-- Attempt of `SEGMENT_HEADER_RE` at position `p` of `raw`; returns the end
position of the match. -/
def segTryAt (raw : Line) (p : Nat) : Option Nat :=
  if isLineStart raw p then (segHeaderAt (raw.drop p)).map (p + ·) else none

/-- Left-to-right non-overlapping scan of `re.finditer`, collecting the match
start positions.  The fuel decreases by one per examined position; since every
step advances the position, `raw.length + 1` fuel is always sufficient. -/
def findFromF : Nat → Line → Nat → List Nat
  | 0, _, _ => []
  | f + 1, raw, p =>
    if raw.length ≤ p then []
    else
      match segTryAt raw p with
      | some e => p :: findFromF f raw (max e (p + 1))
      | none => findFromF f raw (p + 1)

/-- Model of `[m.start() for m in SEGMENT_HEADER_RE.finditer(raw_text)]`
(pdf_parser.py:59). -/
def findStarts (raw : Line) : List Nat :=
  findFromF (raw.length + 1) raw 0

/-- The loop of pdf_parser.py:63-65: one slice per start, each ending at the
next start (or at the end of the input for the last one). -/
def segmentsFrom (raw : Line) : List Nat → List Line
  | [] => []
  | s :: rest =>
    (raw.drop s).take ((match rest with
      | [] => raw.length
      | t :: _ => t) - s) :: segmentsFrom raw rest

/-- Model of `split_into_segments` from pdf_parser.py:57-66. -/
def split_into_segments (raw : Line) : List Line :=
  if findStarts raw = [] then [] else segmentsFrom raw (findStarts raw)

/-- Python dict assignment `d[k] = v`: updates the value in place when the key
is present (keys are unique by construction), appends at the end otherwise. -/
def dictInsert : Dict → Line → Line → Dict
  | [], k, v => [(k, v)]
  | (k', v') :: rest, k, v =>
    if k' = k then (k, v) :: rest else (k', v') :: dictInsert rest k v

/-- Membership test for a key of a modelled dict. -/
def dictHasKey : Dict → Line → Bool
  | [], _ => false
  | (k', _) :: rest, k => if k' = k then true else dictHasKey rest k

/-- Test `code.lower().startswith("17.1")` (pdf_parser.py:127). -/
def isPackCode (code : Line) : Bool :=
  ("17.1".data).isPrefixOf (code.map lowerAscii)

/-- The maximal run of consecutive key lines starting at the cursor
(pdf_parser.py:95-103): the collected `(code, label)` pairs and the remaining
lines. -/
def collectKeys : List Line → List (Line × Line) × List Line
  | [] => ([], [])
  | l :: rest =>
    match keyMatch l with
    | some kl =>
      let p := collectKeys rest
      (kl :: p.1, p.2)
    | none => ([], l :: rest)

/-- The maximal run of consecutive non-key, non-header, non-pack-header lines
starting at the cursor (the guard of pdf_parser.py:107 and 114). -/
def collectVals : List Line → List Line × List Line
  | [] => ([], [])
  | l :: rest =>
    if (keyMatch l).isSome || segHeaderLine l || packHeaderLine l then ([], l :: rest)
    else
      let p := collectVals rest
      (l :: p.1, p.2)

/-- The body of `for idx, (code, label) in enumerate(key_group)`
(pdf_parser.py:122-130): assigns `values_available[idx]` (or `""`) to each key
in order, routing `17.1`-coded keys to the pack mapping. -/
def assignKeyVals : List (Line × Line) → List Line → Nat → Dict → Dict → Dict × Dict
  | [], _, _, mp, pk => (mp, pk)
  | (code, label) :: kg, avail, idx, mp, pk =>
    let v := avail[idx]?.getD []
    if isPackCode code then assignKeyVals kg avail (idx + 1) mp (dictInsert pk label v)
    else assignKeyVals kg avail (idx + 1) (dictInsert mp label v) pk

/-- Routing of a single `((code, label), value)` assignment, used to state
properties of `assignKeyVals`. -/
def routeOne (s : Dict × Dict) (p : (Line × Line) × Line) : Dict × Dict :=
  if isPackCode p.1.1 then (s.1, dictInsert s.2 p.1.2 p.2) else (dictInsert s.1 p.1.2 p.2, s.2)

/-- The `while i < len(lines)` loop of pdf_parser.py:87-133, with explicit
fuel.  Each iteration either consumes at least one line or leaves the state
unchanged (the cursor is stuck on a line matching `SEGMENT_HEADER_RE`, in
which case the Python loop runs forever); so with `lines.length + 1` fuel the
result is `some` exactly when the source loop terminates. -/
def loopF : Nat → List Line → Dict → Dict → List Line → Option (Dict × Dict × List Line)
  | 0, _, _, _, _ => none
  | _ + 1, [], mp, pk, pv => some (mp, pk, pv)
  | f + 1, l :: rest, mp, pk, pv =>
    if packHeaderLine l then loopF f rest mp pk pv
    else
      let kr := collectKeys (l :: rest)
      if kr.1 = [] then
        let vr := collectVals (l :: rest)
        loopF f vr.2 mp pk (pv ++ vr.1)
      else
        let vr := collectVals kr.2
        let avail := pv ++ vr.1
        let s := assignKeyVals kr.1 avail 0 mp pk
        loopF f vr.2 s.1 s.2 (avail.drop kr.1.length)

/-- One section value of the returned article dict: the nested mappings are
dicts, the `_UNMAPPED_VALUES` diagnostic is a plain list. -/
inductive PySection where
  | dict (d : Dict)
  | list (l : List Line)
  deriving DecidableEq

/-- A structured article as returned by `parse_segment`: a Python dict from
section name to section value, modelled as an insertion-ordered list. -/
abbrev PyRecord := List (Line × PySection)

/-- Name of the main section of an article. -/
def posName : Line := "POSITIONSDATEN e-VD/v-e-VD".data

/-- Name of the packages section of an article. -/
def packName : Line := "PACKSTÜCKE".data

/-- Name of the diagnostic section of an article. -/
def unmappedName : Line := "_UNMAPPED_VALUES".data

/-- Construction of `article_obj` (pdf_parser.py:135-141): the pack section is
added only when non-empty, the diagnostic section only when leftover values
remain. -/
def mkArticle (mp pk : Dict) (pv : List Line) : PyRecord :=
  [(posName, .dict mp)]
    ++ (if pk = [] then [] else [(packName, .dict pk)])
    ++ (if pv = [] then [] else [(unmappedName, .list pv)])

/-- Lookup of a section of an article by name. -/
def sectionLookup : PyRecord → Line → Option PySection
  | [], _ => none
  | (k, v) :: rest, key => if k = key then some v else sectionLookup rest key

/-- The section value under a given name, as a dict (empty when the section
is absent or is not a mapping). -/
def sectionDict (r : PyRecord) (k : Line) : Dict :=
  match sectionLookup r k with
  | some (.dict d) => d
  | _ => []

/-- Model of `segment.replace('\r', '\n')`. -/
def crToNl (c : Char) : Char :=
  if c = '\r' then '\n' else c

/-- Dropping of the initial header line
(`lines[0].upper().startswith("17 POSITIONSDATEN")`, pdf_parser.py:80-81). -/
def dropLeadHeader (ls : List Line) : List Line :=
  match ls with
  | [] => []
  | l :: rest =>
    if ("17 POSITIONSDATEN".data).isPrefixOf (l.map upperAscii) then rest else l :: rest

/-- The normalized non-empty lines of a segment after dropping the leading
header line (pdf_parser.py:77-81). -/
def segLines (segment : Line) : List Line :=
  dropLeadHeader
    (((pySplitLines (segment.map crToNl)).map normalize_line).filter (fun l => !l.isEmpty))

/-- Model of `parse_segment` from pdf_parser.py:69-141, with `none` marking inputs on
which the source loop never terminates. -/
def parse_segment (segment : Line) : Option PyRecord :=
  (loopF ((segLines segment).length + 1) (segLines segment) [] [] []).map
    (fun s => mkArticle s.1 s.2.1 s.2.2)

/-- Model of `parse_articles` from pdf_parser.py:144-148: `Except.error ()` models the
raised `ValueError` (the StructureNotFoundError of the spec), the outer `none`
models non-termination of a segment parse. -/
def parse_articles (raw : Line) : Option (Except Unit (List PyRecord)) :=
  if split_into_segments raw = [] then some (.error ())
  else ((split_into_segments raw).mapM parse_segment).map .ok

/-- Loop `flat_record[key] = value` over the items of all sections of one record
(pdf_parser.py:158-165): iterating `.items()` of the `_UNMAPPED_VALUES` list
raises `AttributeError`, modelled as `Except.error ()`. -/
def flattenGo : List (Line × PySection) → Dict → Except Unit Dict
  | [], fr => .ok fr
  | (_, .dict d) :: rest, fr =>
    flattenGo rest (d.foldl (fun acc kv => dictInsert acc kv.1 kv.2) fr)
  | (_, .list _) :: _, _ => .error ()

/-- Flattening of one record into one flat row, starting from an empty dict. -/
def flattenRecord (r : PyRecord) : Except Unit Dict :=
  flattenGo r []

/-- Model of `load_and_flatten` from pdf_parser.py:151-168.  The resulting DataFrame is
modelled by its list of rows, one per input record, in input order. -/
def load_and_flatten (records : List PyRecord) : Except Unit (List Dict) :=
  records.mapM flattenRecord

/-- The dict comprehension of main.py:63 that removes the `_UNMAPPED_VALUES`
diagnostic from each article before flattening. -/
def stripUnmapped (r : PyRecord) : PyRecord :=
  r.filter (fun kv => !decide (kv.1 = unmappedName))

/-- Modelled from the spec (§4.4): one FlatRow obtained by merging `main` then
`packages`, the packages value overwriting the main value on a label
collision; used to compare `load_and_flatten` against the spec's words. -/
def specFlatRow (mp pk : Dict) : Dict :=
  pk.foldl (fun acc kv => dictInsert acc kv.1 kv.2)
    (mp.foldl (fun acc kv => dictInsert acc kv.1 kv.2) [])

/-! Helper lemmas. -/

/-- A line that is neither a pack header nor a key line but matches the
segment-header pattern leaves the cursor of the `while` loop unchanged, so the
loop never terminates there, whatever the fuel. -/
theorem loopF_stuck (l : Line) (rest : List Line)
    (h1 : packHeaderLine l = false) (h2 : keyMatch l = none)
    (h3 : segHeaderLine l = true) :
    ∀ f mp pk pv, loopF f (l :: rest) mp pk pv = none := by
  have hck : collectKeys (l :: rest) = ([], l :: rest) := by
    simp [collectKeys, h2]
  have hcv : collectVals (l :: rest) = ([], l :: rest) := by
    simp [collectVals, h2, h3]
  intro f
  induction f with
  | zero => intro mp pk pv; rfl
  | succ f ih =>
    intro mp pk pv
    simp only [loopF, h1, hck, hcv, Bool.false_eq_true, if_false]
    rw [List.append_nil]
    exact ih mp pk pv

/-- One step of `assignKeyVals`, expressed through `routeOne`. -/
theorem assignKeyVals_cons (c lab : Line) (kg : List (Line × Line))
    (avail : List Line) (idx : Nat) (mp pk : Dict) :
    assignKeyVals ((c, lab) :: kg) avail idx mp pk
      = assignKeyVals kg avail (idx + 1)
          (routeOne (mp, pk) ((c, lab), avail[idx]?.getD [])).1
          (routeOne (mp, pk) ((c, lab), avail[idx]?.getD [])).2 := by
  by_cases h : isPackCode c = true <;>
    simp [assignKeyVals, routeOne, h]

/-- Function `assignKeyVals` equals an in-order fold of `routeOne` over the keys zipped
with the available values padded with empty strings. -/
theorem assignKeyVals_eq_fold (kg : List (Line × Line)) :
    ∀ (avail : List Line) (idx : Nat) (mp pk : Dict),
    assignKeyVals kg avail idx mp pk
      = List.foldl routeOne (mp, pk)
          (kg.zip (avail.drop idx
            ++ List.replicate (kg.length - (avail.drop idx).length) [])) := by
  induction kg with
  | nil => intro avail idx mp pk; simp [assignKeyVals]
  | cons kl kg ih =>
    intro avail idx mp pk
    obtain ⟨c, lab⟩ := kl
    rw [assignKeyVals_cons, ih]
    have hdrop : avail.drop (idx + 1) = (avail.drop idx).drop 1 := by
      rw [List.drop_drop]
    rcases hd : avail.drop idx with _ | ⟨v0, vs⟩
    · have hget : avail[idx]? = none := by
        rw [← List.head?_drop, hd]; rfl
      rw [hdrop, hd]
      simp [hget, List.replicate_succ]
    · have hget : avail[idx]? = some v0 := by
        rw [← List.head?_drop, hd]; rfl
      rw [hdrop, hd]
      simp [hget, Nat.succ_sub_succ]

/-- The routing fold splits: the main dict receives exactly the pairs whose
code is not a pack code, the pack dict exactly the pack-coded pairs. -/
theorem foldl_routeOne_split (ps : List ((Line × Line) × Line)) :
    ∀ (mp pk : Dict),
    List.foldl routeOne (mp, pk) ps
      = (List.foldl (fun d p => dictInsert d p.1.2 p.2) mp
            (ps.filter (fun p => !isPackCode p.1.1)),
         List.foldl (fun d p => dictInsert d p.1.2 p.2) pk
            (ps.filter (fun p => isPackCode p.1.1))) := by
  induction ps with
  | nil => intro mp pk; rfl
  | cons p ps ih =>
    intro mp pk
    by_cases h : isPackCode p.1.1 = true <;>
      simp [routeOne, h, List.filter_cons, ih]

/-- Inserting a key makes it present. -/
theorem dictHasKey_insert_self (d : Dict) (k v : Line) :
    dictHasKey (dictInsert d k v) k = true := by
  induction d with
  | nil => simp [dictInsert, dictHasKey]
  | cons kv d ih =>
    obtain ⟨k', v'⟩ := kv
    by_cases h : k' = k <;> simp [dictInsert, dictHasKey, h, ih]

/-- Inserting never removes a present key. -/
theorem dictHasKey_insert_mono (d : Dict) (k v k' : Line)
    (h : dictHasKey d k' = true) :
    dictHasKey (dictInsert d k v) k' = true := by
  induction d with
  | nil => simp [dictHasKey] at h
  | cons kv d ih =>
    obtain ⟨a, b⟩ := kv
    by_cases hak : a = k
    · subst hak
      by_cases hak' : a = k' <;>
        simp_all [dictInsert, dictHasKey]
    · by_cases hak' : a = k' <;>
        simp_all [dictInsert, dictHasKey]

/-- Function `assignKeyVals` only ever adds keys to either dict. -/
theorem assignKeyVals_hasKey_mono (kg : List (Line × Line)) :
    ∀ (avail : List Line) (idx : Nat) (mp pk : Dict) (k : Line),
    (dictHasKey mp k = true → dictHasKey (assignKeyVals kg avail idx mp pk).1 k = true)
    ∧ (dictHasKey pk k = true → dictHasKey (assignKeyVals kg avail idx mp pk).2 k = true) := by
  induction kg with
  | nil => intro avail idx mp pk k; exact ⟨id, id⟩
  | cons kl kg ih =>
    intro avail idx mp pk k
    obtain ⟨c, lab⟩ := kl
    by_cases h : isPackCode c = true <;>
      simp only [assignKeyVals, h, if_true, if_false, Bool.false_eq_true] <;>
      refine ⟨fun hm => ?_, fun hp => ?_⟩
    · exact (ih _ _ _ _ k).1 hm
    · exact (ih _ _ _ _ k).2 (dictHasKey_insert_mono _ _ _ _ hp)
    · exact (ih _ _ _ _ k).1 (dictHasKey_insert_mono _ _ _ _ hm)
    · exact (ih _ _ _ _ k).2 hp

/-- Every key of the group ends up, under its label, in one of the two
dicts produced by `assignKeyVals`. -/
theorem assignKeyVals_mem_label (kg : List (Line × Line)) :
    ∀ (avail : List Line) (idx : Nat) (mp pk : Dict) (c lab : Line),
    (c, lab) ∈ kg →
    dictHasKey (assignKeyVals kg avail idx mp pk).1 lab = true
      ∨ dictHasKey (assignKeyVals kg avail idx mp pk).2 lab = true := by
  induction kg with
  | nil => intro avail idx mp pk c lab h; simp at h
  | cons kl kg ih =>
    intro avail idx mp pk c lab h
    rcases List.mem_cons.mp h with heq | hmem
    · subst heq
      by_cases hp : isPackCode c = true
      · right
        simp only [assignKeyVals, hp, if_true]
        exact (assignKeyVals_hasKey_mono kg _ _ _ _ lab).2
          (dictHasKey_insert_self _ _ _)
      · left
        simp only [assignKeyVals, hp, Bool.false_eq_true, if_false]
        exact (assignKeyVals_hasKey_mono kg _ _ _ _ lab).1
          (dictHasKey_insert_self _ _ _)
    · obtain ⟨c', lab'⟩ := kl
      by_cases hp : isPackCode c' = true <;>
        simp only [assignKeyVals, hp, if_true, if_false, Bool.false_eq_true] <;>
        exact ih _ _ _ _ _ _ hmem

/-- When no key of the group is pack-coded, the pack dict is untouched. -/
theorem assignKeyVals_pack_eq (kg : List (Line × Line)) :
    ∀ (avail : List Line) (idx : Nat) (mp pk : Dict),
    (∀ kl ∈ kg, isPackCode kl.1 = false) →
    (assignKeyVals kg avail idx mp pk).2 = pk := by
  induction kg with
  | nil => intro avail idx mp pk _; rfl
  | cons kl kg ih =>
    intro avail idx mp pk h
    obtain ⟨c, lab⟩ := kl
    have hc : isPackCode c = false := h (c, lab) (List.mem_cons_self _ _)
    simp only [assignKeyVals, hc, Bool.false_eq_true, if_false]
    exact ih _ _ _ _ (fun kl hkl => h kl (List.mem_cons_of_mem _ hkl))

/-- The rest returned by `collectKeys` consists of lines of the input. -/
theorem collectKeys_rest_mem : ∀ ls : List Line, ∀ l ∈ (collectKeys ls).2, l ∈ ls := by
  intro ls
  induction ls with
  | nil => intro l h; simp [collectKeys] at h
  | cons l0 rest ih =>
    intro l h
    by_cases hk : (keyMatch l0).isSome
    · obtain ⟨kl, hkl⟩ := Option.isSome_iff_exists.mp hk
      simp only [collectKeys, hkl] at h
      exact List.mem_cons_of_mem _ (ih l h)
    · rw [Option.not_isSome_iff_eq_none] at hk
      simp only [collectKeys, hk] at h
      exact h

/-- Every collected key pair comes from a key line of the input. -/
theorem collectKeys_mem_src : ∀ ls : List Line, ∀ kl ∈ (collectKeys ls).1,
    ∃ l ∈ ls, keyMatch l = some kl := by
  intro ls
  induction ls with
  | nil => intro kl h; simp [collectKeys] at h
  | cons l0 rest ih =>
    intro kl h
    by_cases hk : (keyMatch l0).isSome
    · obtain ⟨kl0, hkl0⟩ := Option.isSome_iff_exists.mp hk
      simp only [collectKeys, hkl0] at h
      rcases List.mem_cons.mp h with heq | hmem
      · exact ⟨l0, List.mem_cons_self _ _, heq ▸ hkl0⟩
      · obtain ⟨l, hl, hmatch⟩ := ih kl hmem
        exact ⟨l, List.mem_cons_of_mem _ hl, hmatch⟩
    · rw [Option.not_isSome_iff_eq_none] at hk
      simp only [collectKeys, hk] at h
      simp at h

/-- A key line of the input either contributes its pair to the collected
group or remains in the rest. -/
theorem collectKeys_complete : ∀ ls : List Line, ∀ l ∈ ls, ∀ c lab : Line,
    keyMatch l = some (c, lab) →
    (c, lab) ∈ (collectKeys ls).1 ∨ l ∈ (collectKeys ls).2 := by
  intro ls
  induction ls with
  | nil => intro l h; simp at h
  | cons l0 rest ih =>
    intro l hl c lab hmatch
    by_cases hk : (keyMatch l0).isSome
    · obtain ⟨kl0, hkl0⟩ := Option.isSome_iff_exists.mp hk
      rcases List.mem_cons.mp hl with heq | hmem
      · subst heq
        left
        simp only [collectKeys, hkl0]
        rw [hmatch] at hkl0
        exact List.mem_cons.mpr (Or.inl (Option.some.inj hkl0))
      · rcases ih l hmem c lab hmatch with h1 | h2
        · left; simp only [collectKeys, hkl0]; exact List.mem_cons_of_mem _ h1
        · right; simp only [collectKeys, hkl0]; exact h2
    · rw [Option.not_isSome_iff_eq_none] at hk
      right
      simp only [collectKeys, hk]
      exact hl

/-- Collected value lines are non-key, non-header, non-pack-header lines. -/
theorem collectVals_mem : ∀ ls : List Line, ∀ v ∈ (collectVals ls).1,
    keyMatch v = none ∧ segHeaderLine v = false ∧ packHeaderLine v = false := by
  intro ls
  induction ls with
  | nil => intro v h; simp [collectVals] at h
  | cons l0 rest ih =>
    intro v h
    by_cases hg : ((keyMatch l0).isSome || segHeaderLine l0 || packHeaderLine l0) = true
    · simp only [collectVals, hg, if_true] at h
      simp at h
    · simp only [collectVals, hg, Bool.false_eq_true, if_false] at h
      rcases List.mem_cons.mp h with heq | hmem
      · subst heq
        have hb : (keyMatch v).isSome = false ∧ segHeaderLine v = false
            ∧ packHeaderLine v = false := by
          revert hg
          cases (keyMatch v).isSome <;> cases segHeaderLine v <;>
            cases packHeaderLine v <;> simp
        refine ⟨?_, hb.2.1, hb.2.2⟩
        rcases hm : keyMatch v with _ | kl
        · rfl
        · rw [hm] at hb; simp at hb
      · exact ih v hmem

/-- Whitespace characters are not ASCII letters. -/
theorem pyIsSpace_not_letter (c : Char) (h : pyIsSpace c = true) :
    isAsciiLetter c = false := by
  simp only [pyIsSpace] at h
  have hm := of_decide_eq_true h
  fin_cases hm <;> decide

/-- A line matching the pack-header pattern never matches the key pattern:
after the numeric code the former requires whitespace, the latter a letter. -/
theorem packHeader_keyMatch_none (l : Line) (h : packHeaderLine l = true) :
    keyMatch l = none := by
  rcases l with _ | ⟨a, _ | ⟨b, rest⟩⟩
  · simp [packHeaderLine] at h
  · simp [packHeaderLine] at h
  · by_cases hab : a = '1' ∧ b = '7'
    · obtain ⟨ha, hb⟩ := hab
      subst ha; subst hb
      rcases rest with _ | ⟨c, r2⟩
      · simp [packHeaderLine] at h
      · by_cases hc : c = '.'
        · subst hc
          rcases hds : dotSplitAfter r2 with _ | ⟨ds, r3⟩
          · simp [packHeaderLine, hds] at h
          · rcases r3 with _ | ⟨w, r3'⟩
            · simp [packHeaderLine, hds] at h
            · by_cases hw : pyIsSpace w = true
              · have hl : isAsciiLetter w = false := pyIsSpace_not_letter w hw
                simp [keyMatch, hds, hl]
              · have hw' : pyIsSpace w = false := by
                  cases hww : pyIsSpace w
                  · rfl
                  · exact absurd hww hw
                simp [packHeaderLine, hds, hw'] at h
        · by_cases hwc : pyIsSpace c = true
          · have hl : isAsciiLetter c = false := pyIsSpace_not_letter c hwc
            have hcdot : (c = '.') = False := by simp [hc]
            simp [keyMatch, hcdot, hl]
          · have hw' : pyIsSpace c = false := by
              cases hww : pyIsSpace c
              · rfl
              · exact absurd hww hwc
            simp [packHeaderLine, hc, hw'] at h
    · simp [packHeaderLine, hab] at h

/-- Every line of the input is either collected as a value or left in the
rest by `collectVals`. -/
theorem collectVals_split : ∀ ls : List Line, ∀ l ∈ ls,
    l ∈ (collectVals ls).1 ∨ l ∈ (collectVals ls).2 := by
  intro ls
  induction ls with
  | nil => intro l h; simp at h
  | cons l0 rest ih =>
    intro l hl
    by_cases hg : ((keyMatch l0).isSome || segHeaderLine l0 || packHeaderLine l0) = true
    · right; simp only [collectVals, hg, if_true]; exact hl
    · rcases List.mem_cons.mp hl with heq | hmem
      · subst heq
        left
        simp only [collectVals, hg, Bool.false_eq_true, if_false]
        exact List.mem_cons_self _ _
      · rcases ih l hmem with h1 | h2
        · left
          simp only [collectVals, hg, Bool.false_eq_true, if_false]
          exact List.mem_cons_of_mem _ h1
        · right
          simp only [collectVals, hg, Bool.false_eq_true, if_false]
          exact h2

/-- The rest returned by `collectVals` consists of lines of the input. -/
theorem collectVals_rest_mem : ∀ ls : List Line, ∀ l ∈ (collectVals ls).2, l ∈ ls := by
  intro ls
  induction ls with
  | nil => intro l h; simp [collectVals] at h
  | cons l0 rest ih =>
    intro l h
    by_cases hg : ((keyMatch l0).isSome || segHeaderLine l0 || packHeaderLine l0) = true
    · simp only [collectVals, hg, if_true] at h
      exact h
    · simp only [collectVals, hg, Bool.false_eq_true, if_false] at h
      exact List.mem_cons_of_mem _ (ih l h)

/-- When no key is collected from a non-empty line list, its head is not a
key line and the rest is the whole input. -/
theorem collectKeys_nil_head (l : Line) (rest : List Line)
    (h : (collectKeys (l :: rest)).1 = []) :
    keyMatch l = none ∧ (collectKeys (l :: rest)).2 = l :: rest := by
  cases hk : keyMatch l with
  | none => simp [collectKeys, hk]
  | some kl => simp [collectKeys, hk] at h

/-- The parse loop only ever adds keys to the two dicts. -/
theorem loopF_hasKey_mono :
    ∀ (f : Nat) (ls : List Line) (mp pk : Dict) (pv : List Line)
      (m p : Dict) (u : List Line) (k : Line),
    loopF f ls mp pk pv = some (m, p, u) →
    (dictHasKey mp k = true → dictHasKey m k = true)
    ∧ (dictHasKey pk k = true → dictHasKey p k = true) := by
  intro f
  induction f with
  | zero => intro ls mp pk pv m p u k h; simp [loopF] at h
  | succ f ih =>
    intro ls mp pk pv m p u k h
    cases ls with
    | nil =>
      simp only [loopF, Option.some.injEq, Prod.mk.injEq] at h
      obtain ⟨h1, h2, _⟩ := h
      subst h1; subst h2
      exact ⟨id, id⟩
    | cons l rest =>
      cases hp : packHeaderLine l with
      | true =>
        rw [loopF, if_pos hp] at h
        exact ih rest mp pk pv m p u k h
      | false =>
        rw [loopF, if_neg (by simp [hp])] at h
        by_cases hkg : (collectKeys (l :: rest)).1 = []
        · rw [if_pos hkg] at h
          exact ih _ _ _ _ _ _ _ k h
        · rw [if_neg hkg] at h
          have hmono := ih _ _ _ _ _ _ _ k h
          have ha := assignKeyVals_hasKey_mono (collectKeys (l :: rest)).1
            (pv ++ (collectVals (collectKeys (l :: rest)).2).1) 0 mp pk k
          exact ⟨fun hm => hmono.1 (ha.1 hm), fun hpk => hmono.2 (ha.2 hpk)⟩

/-- When no key line of the input is pack-coded, an initially empty pack dict
stays empty through the whole parse loop. -/
theorem loopF_pack_nil :
    ∀ (f : Nat) (ls : List Line) (mp : Dict) (pv : List Line)
      (m p : Dict) (u : List Line),
    (∀ l ∈ ls, ∀ c lab : Line, keyMatch l = some (c, lab) → isPackCode c = false) →
    loopF f ls mp [] pv = some (m, p, u) →
    p = [] := by
  intro f
  induction f with
  | zero => intro ls mp pv m p u _ h; simp [loopF] at h
  | succ f ih =>
    intro ls mp pv m p u hnp h
    cases ls with
    | nil =>
      simp only [loopF, Option.some.injEq, Prod.mk.injEq] at h
      exact h.2.1.symm
    | cons l rest =>
      cases hp : packHeaderLine l with
      | true =>
        rw [loopF, if_pos hp] at h
        exact ih rest mp pv m p u
          (fun l' hl' => hnp l' (List.mem_cons_of_mem _ hl')) h
      | false =>
        rw [loopF, if_neg (by simp [hp])] at h
        by_cases hkg : (collectKeys (l :: rest)).1 = []
        · rw [if_pos hkg] at h
          have hrest := (collectKeys_nil_head l rest hkg).2
          refine ih _ _ _ _ _ _ (fun l' hl' => ?_) h
          have : l' ∈ (collectVals (l :: rest)).2 := hl'
          exact hnp l' (collectVals_rest_mem _ _ this)
        · rw [if_neg hkg] at h
          have hkgnp : ∀ kl ∈ (collectKeys (l :: rest)).1, isPackCode kl.1 = false := by
            intro kl hkl
            obtain ⟨l', hl', hmatch⟩ := collectKeys_mem_src _ kl hkl
            exact hnp l' hl' kl.1 kl.2 (by simpa using hmatch)
          simp only [] at h
          rw [assignKeyVals_pack_eq _ _ _ _ _ hkgnp] at h
          refine ih _ _ _ _ _ _ (fun l' hl' => ?_) h
          exact hnp l' (collectKeys_rest_mem _ _ (collectVals_rest_mem _ _ hl'))

/-- Every key line of the input list contributes its label as a key of one of
the two dicts returned by a terminating run of the parse loop. -/
theorem loopF_key_covered :
    ∀ (f : Nat) (ls : List Line) (mp pk : Dict) (pv : List Line)
      (m p : Dict) (u : List Line),
    loopF f ls mp pk pv = some (m, p, u) →
    ∀ l ∈ ls, ∀ c lab : Line, keyMatch l = some (c, lab) →
    dictHasKey m lab = true ∨ dictHasKey p lab = true := by
  intro f
  induction f with
  | zero => intro ls mp pk pv m p u h; simp [loopF] at h
  | succ f ih =>
    intro ls mp pk pv m p u h l hl c lab hmatch
    cases ls with
    | nil => simp at hl
    | cons l0 rest =>
      cases hp : packHeaderLine l0 with
      | true =>
        rw [loopF, if_pos hp] at h
        rcases List.mem_cons.mp hl with heq | hmem
        · subst heq
          rw [packHeader_keyMatch_none l hp] at hmatch
          exact absurd hmatch (by simp)
        · exact ih _ _ _ _ _ _ _ h l hmem c lab hmatch
      | false =>
        rw [loopF, if_neg (by simp [hp])] at h
        by_cases hkg : (collectKeys (l0 :: rest)).1 = []
        · rw [if_pos hkg] at h
          obtain ⟨_, hrest⟩ := collectKeys_nil_head l0 rest hkg
          rcases collectVals_split (l0 :: rest) l hl with hv | hr
          · have := (collectVals_mem _ l hv).1
            rw [this] at hmatch
            exact absurd hmatch (by simp)
          · exact ih _ _ _ _ _ _ _ h l hr c lab hmatch
        · rw [if_neg hkg] at h
          rcases collectKeys_complete (l0 :: rest) l hl c lab hmatch with hkl | hr1
          · have hlab := assignKeyVals_mem_label _
              (pv ++ (collectVals (collectKeys (l0 :: rest)).2).1) 0 mp pk c lab hkl
            have hmono := loopF_hasKey_mono f _ _ _ _ _ _ _ lab h
            rcases hlab with h1 | h2
            · exact Or.inl (hmono.1 h1)
            · exact Or.inr (hmono.2 h2)
          · rcases collectVals_split _ l hr1 with hv | hr2
            · have := (collectVals_mem _ l hv).1
              rw [this] at hmatch
              exact absurd hmatch (by simp)
            · exact ih _ _ _ _ _ _ _ h l hr2 c lab hmatch

/-! Claim theorems. -/

/-- Claim C1 (code bug): `parse_segment` is claimed to terminate and return a
Record for every input string.  Refuted: when a normalized line matching the
segment-header pattern survives inside the segment — e.g. the input
`"17 POSITIONSDATEN\n17 POSITIONSDATEN"`, whose second header line is not
dropped — the loop guard of pdf_parser.py:107 refuses the line, no branch
advances the cursor, and the `while` loop of `parse_segment` runs forever;
in the fuelled model the loop yields `none` for every fuel. -/
theorem c1_parse_segment_diverges :
    (∀ (f : Nat) (mp pk : Dict) (pv : List Line),
      loopF f [("17 POSITIONSDATEN".data)] mp pk pv = none)
    ∧ parse_segment ("17 POSITIONSDATEN\n17 POSITIONSDATEN".data) = none := by
  have hstuck := loopF_stuck ("17 POSITIONSDATEN".data) []
    (by decide) (by decide) (by decide)
  refine ⟨fun f mp pk pv => hstuck f mp pk pv, ?_⟩
  have hsl : segLines ("17 POSITIONSDATEN\n17 POSITIONSDATEN".data)
      = [("17 POSITIONSDATEN".data)] := by decide
  rw [parse_segment, hsl]
  rw [hstuck]
  rfl

/-- Claim C5: in a reconciliation step with K keys and V available values,
V < K, the first V keys receive the first V values in order and the remaining
K − V keys receive the empty string; no exception is raised (the assignment
function is total, mirroring the explicit `idx < len(values_available)` check
of pdf_parser.py:123).  The conclusion is the in-order routing fold over the
keys zipped with the values padded by empty strings, and in fact holds for
every V. -/
theorem c5_value_shortfall (kg : List (Line × Line)) (avail : List Line)
    (mp pk : Dict) (_h : avail.length < kg.length) :
    assignKeyVals kg avail 0 mp pk
      = List.foldl routeOne (mp, pk)
          (kg.zip (avail ++ List.replicate (kg.length - avail.length) [])) := by
  have := assignKeyVals_eq_fold kg avail 0 mp pk
  simpa using this

/-- Witness for C5 at a concrete input: two keys, one value. -/
theorem c5_value_shortfall_witness :
    (["v1".data] : List Line).length
        < ([("17a".data, "A".data), ("17b".data, "B".data)] : List (Line × Line)).length
    ∧ assignKeyVals [("17a".data, "A".data), ("17b".data, "B".data)] ["v1".data] 0 [] []
      = List.foldl routeOne ([], [])
          (([("17a".data, "A".data), ("17b".data, "B".data)]).zip
            (["v1".data] ++ List.replicate
              (([("17a".data, "A".data), ("17b".data, "B".data)] : List (Line × Line)).length
                - (["v1".data] : List Line).length) [])) :=
  ⟨by decide, c5_value_shortfall _ _ _ _ (by decide)⟩

/-- Claim C6: in a reconciliation step with K keys and V available values,
V > K, the K keys receive the first K values in order (the zip truncates the
value list) and the V − K leftover values are exactly `avail.drop K` — the
expression the loop carries as the new `pending_values` (pdf_parser.py:133);
when they survive to the end of the segment (the loop returns them unchanged
on exhausted input), the returned article holds exactly them, in order, under
the diagnostic key, which is present only when the leftover list is
non-empty. -/
theorem c6_value_surplus (kg : List (Line × Line)) (avail : List Line)
    (mp pk mp' pk' : Dict) (f : Nat) (pv : List Line)
    (h : kg.length < avail.length) :
    assignKeyVals kg avail 0 mp pk = List.foldl routeOne (mp, pk) (kg.zip avail)
    ∧ loopF (f + 1) [] mp' pk' pv = some (mp', pk', pv)
    ∧ sectionLookup (mkArticle mp' pk' (avail.drop kg.length)) unmappedName
        = some (.list (avail.drop kg.length))
    ∧ sectionLookup (mkArticle mp' pk' []) unmappedName = none := by
  have hp1 := eq_false (show ¬(posName = unmappedName) by decide)
  have hp2 := eq_false (show ¬(packName = unmappedName) by decide)
  refine ⟨?_, rfl, ?_, ?_⟩
  · have := assignKeyVals_eq_fold kg avail 0 mp pk
    have hz : kg.length - avail.length = 0 := by omega
    simpa [hz] using this
  · have hne : avail.drop kg.length ≠ [] := by
      intro hnil
      have := congrArg List.length hnil
      simp only [List.length_drop, List.length_nil] at this
      omega
    by_cases hpk' : pk' = [] <;>
      simp [mkArticle, sectionLookup, hpk', hne, hp1, hp2]
  · by_cases hpk' : pk' = [] <;>
      simp [mkArticle, sectionLookup, hpk', hp1, hp2]

/-- Witness for C6 at a concrete input: one key, three values. -/
theorem c6_value_surplus_witness :
    ([("17a".data, "A".data)] : List (Line × Line)).length
        < (["v1".data, "v2".data, "v3".data] : List Line).length
    ∧ (assignKeyVals [("17a".data, "A".data)] ["v1".data, "v2".data, "v3".data] 0 [] []
        = List.foldl routeOne ([], [])
            (([("17a".data, "A".data)]).zip ["v1".data, "v2".data, "v3".data])
      ∧ loopF (0 + 1) [] [] [] [] = some ([], [], [])
      ∧ sectionLookup
          (mkArticle [] []
            ((["v1".data, "v2".data, "v3".data] : List Line).drop
              ([("17a".data, "A".data)] : List (Line × Line)).length))
          unmappedName
          = some (.list ((["v1".data, "v2".data, "v3".data] : List Line).drop
              ([("17a".data, "A".data)] : List (Line × Line)).length))
      ∧ sectionLookup (mkArticle [] [] []) unmappedName = none) :=
  ⟨by decide, c6_value_surplus _ _ _ _ _ _ 0 [] (by decide)⟩

/-- Flattening one article that went through the caller's diagnostic strip
yields exactly the spec's merged row: `main` first, then `packages`
overwriting on label collisions. -/
theorem flattenRecord_strip (mp pk : Dict) (pv : List Line) :
    flattenRecord (stripUnmapped (mkArticle mp pk pv)) = .ok (specFlatRow mp pk) := by
  have h1 := eq_false (show ¬(posName = unmappedName) by decide)
  have h2 := eq_false (show ¬(packName = unmappedName) by decide)
  by_cases hpk : pk = [] <;> by_cases hpv : pv = [] <;>
    simp [stripUnmapped, mkArticle, hpk, hpv, h1, h2, List.filter_append,
      flattenRecord, flattenGo, specFlatRow]

/-- Claim C2 (counterexample): `load_and_flatten` does not drop the
diagnostic `_UNMAPPED_VALUES` entry — iterating `.items()` of that list value
raises `AttributeError` (pdf_parser.py:161), so no row at all is produced for
a record still carrying it. -/
theorem c2_unmapped_raises :
    load_and_flatten [mkArticle [] [] [['x']]] = .error () := by
  rfl

/-- Claim C2 (amended): for articles whose diagnostic `_UNMAPPED_VALUES`
entry has been removed — as the submit handler of main.py:63 does before
calling — `load_and_flatten` returns exactly one flat row per input record,
in input order, each row merging the record's `main` mapping then its
`packages` mapping with last-write-wins on label collisions; a record still
carrying the diagnostic entry makes `load_and_flatten` fail instead. -/
theorem c2_flatten_rows (rs : List (Dict × Dict × List Line)) :
    load_and_flatten (rs.map (fun r => stripUnmapped (mkArticle r.1 r.2.1 r.2.2)))
      = .ok (rs.map (fun r => specFlatRow r.1 r.2.1)) := by
  induction rs with
  | nil => rfl
  | cons r rs ih =>
    simp only [load_and_flatten, List.map_cons, List.mapM_cons] at ih ⊢
    rw [flattenRecord_strip]
    simp only [bind, Except.bind]
    rw [ih]
    rfl

/-- The sections of a built article: the main dict is always the first
section; the pack dict is its own section exactly when non-empty. -/
theorem mkArticle_dicts (m p : Dict) (u : List Line) :
    sectionDict (mkArticle m p u) posName = m
    ∧ (p ≠ [] → sectionDict (mkArticle m p u) packName = p) := by
  have h1 := eq_false (show ¬(posName = packName) by decide)
  constructor
  · by_cases hp : p = [] <;> by_cases hu : u = [] <;>
      simp [mkArticle, sectionDict, sectionLookup, hp, hu]
  · intro hp
    by_cases hu : u = [] <;>
      simp [mkArticle, sectionDict, sectionLookup, hp, hu, h1]

/-- Claim C7: every key whose code starts with the sub-section prefix "17.1"
is routed to the pack dict and never to the main dict (the two components of
a reconciliation step are folds over the pack-coded and the non-pack-coded
pairs respectively), and a parsed segment none of whose key lines carries the
prefix yields an article with no packages section at all. -/
theorem c7_pack_routing (seg : Line) (rec : PyRecord) (kg : List (Line × Line))
    (avail : List Line) (idx : Nat) (mp pk : Dict)
    (hparse : parse_segment seg = some rec)
    (hnopack : ∀ l ∈ segLines seg, ∀ c lab : Line,
      keyMatch l = some (c, lab) → isPackCode c = false) :
    (assignKeyVals kg avail idx mp pk).1
        = List.foldl (fun d q => dictInsert d q.1.2 q.2) mp
            ((kg.zip (avail.drop idx
              ++ List.replicate (kg.length - (avail.drop idx).length) [])).filter
              (fun q => !isPackCode q.1.1))
    ∧ (assignKeyVals kg avail idx mp pk).2
        = List.foldl (fun d q => dictInsert d q.1.2 q.2) pk
            ((kg.zip (avail.drop idx
              ++ List.replicate (kg.length - (avail.drop idx).length) [])).filter
              (fun q => isPackCode q.1.1))
    ∧ sectionLookup rec packName = none := by
  have hfold := assignKeyVals_eq_fold kg avail idx mp pk
  have hsplit := foldl_routeOne_split
    (kg.zip (avail.drop idx
      ++ List.replicate (kg.length - (avail.drop idx).length) [])) mp pk
  refine ⟨by rw [hfold, hsplit], by rw [hfold, hsplit], ?_⟩
  rw [parse_segment] at hparse
  obtain ⟨⟨m, p, u⟩, hloop, hrec⟩ := Option.map_eq_some'.mp hparse
  have hp : p = [] := loopF_pack_nil _ _ _ _ _ _ _ hnopack hloop
  subst hp
  subst hrec
  have h1 := eq_false (show ¬(posName = packName) by decide)
  have h2 := eq_false (show ¬(unmappedName = packName) by decide)
  by_cases hu : u = [] <;> simp [mkArticle, sectionLookup, hu, h1, h2]

/-- Witness for C7: a parsed segment with a single plain key, and a
reconciliation step holding one pack-coded and one plain key. -/
theorem c7_pack_routing_witness :
    (assignKeyVals [("17.1a".data, "Art".data), ("17e".data, "B".data)]
        ["x".data] 0 [] []).1
        = List.foldl (fun d q => dictInsert d q.1.2 q.2) []
            (([("17.1a".data, "Art".data), ("17e".data, "B".data)].zip
              (["x".data].drop 0
                ++ List.replicate
                  (([("17.1a".data, "Art".data), ("17e".data, "B".data)] : List (Line × Line)).length
                    - (["x".data].drop 0).length) [])).filter
              (fun q => !isPackCode q.1.1))
    ∧ (assignKeyVals [("17.1a".data, "Art".data), ("17e".data, "B".data)]
        ["x".data] 0 [] []).2
        = List.foldl (fun d q => dictInsert d q.1.2 q.2) []
            (([("17.1a".data, "Art".data), ("17e".data, "B".data)].zip
              (["x".data].drop 0
                ++ List.replicate
                  (([("17.1a".data, "Art".data), ("17e".data, "B".data)] : List (Line × Line)).length
                    - (["x".data].drop 0).length) [])).filter
              (fun q => isPackCode q.1.1))
    ∧ sectionLookup [((posName : Line), PySection.dict [("A".data, "v".data)])] packName = none :=
  c7_pack_routing ("17a A\nv".data)
    [((posName : Line), PySection.dict [("A".data, "v".data)])]
    [("17.1a".data, "Art".data), ("17e".data, "B".data)] ["x".data] 0 [] []
    (by decide)
    (by
      intro l hl c lab hm
      rw [show segLines ("17a A\nv".data) = [("17a A".data), ("v".data)] from by decide] at hl
      fin_cases hl
      · rw [show keyMatch ("17a A".data) = some ("17a".data, "A".data) from by decide] at hm
        injection hm with hm1
        injection hm1 with hc hlab
        subst hc
        decide
      · rw [show keyMatch ("v".data) = none from by decide] at hm
        exact absurd hm (by simp))

/-- Claim C8: every line classified as a key line contributes its label as a
key of the main or the pack mapping of the returned article, for every
terminating parse. -/
theorem c8_keys_covered (seg : Line) (rec : PyRecord) (l c lab : Line)
    (hparse : parse_segment seg = some rec)
    (hl : l ∈ segLines seg)
    (hmatch : keyMatch l = some (c, lab)) :
    dictHasKey (sectionDict rec posName) lab = true
      ∨ dictHasKey (sectionDict rec packName) lab = true := by
  rw [parse_segment] at hparse
  obtain ⟨⟨m, p, u⟩, hloop, hrec⟩ := Option.map_eq_some'.mp hparse
  subst hrec
  have hcov := loopF_key_covered _ _ _ _ _ _ _ _ hloop l hl c lab hmatch
  have hmd := mkArticle_dicts m p u
  rcases hcov with hm | hp
  · exact Or.inl (by rw [hmd.1]; exact hm)
  · have hpne : p ≠ [] := by
      intro he; subst he; simp [dictHasKey] at hp
    exact Or.inr (by rw [hmd.2 hpne]; exact hp)

/-- Witness for C8: the key line `17a Pos` of a concrete parsed segment ends
up, under its label, in the main mapping. -/
theorem c8_keys_covered_witness :
    dictHasKey (sectionDict [((posName : Line), PySection.dict [("Pos".data, "1".data)])] posName)
        ("Pos".data) = true
      ∨ dictHasKey (sectionDict [((posName : Line), PySection.dict [("Pos".data, "1".data)])] packName)
        ("Pos".data) = true :=
  c8_keys_covered ("17a Pos\n1".data)
    [((posName : Line), PySection.dict [("Pos".data, "1".data)])]
    ("17a Pos".data) ("17a".data) ("Pos".data)
    (by decide) (by decide) (by decide)

/-- Claim C10 (code bug): the PACK_HEADER_RE comment (pdf_parser.py:48)
documents that both spellings "17 PACKSTÜCKE" and "17 PACKSTUECKE" mark a
sub-section header, and a matching line is indeed skipped as a structural
marker; but the regex `PACKST[ÜU]CKE` fails on the "UE" spelling — after
`[ÜU]` consumes the `U`, `CKE` cannot match `ECKE` — so such a line is
treated as a value line and surfaces in the returned article (here as its
diagnostic unmapped entry). -/
theorem c10_pack_spelling :
    packHeaderLine ("17 PACKSTÜCKE".data) = true
    ∧ packHeaderLine ("17 packstücke".data) = true
    ∧ packHeaderLine ("17.1 PACKSTÜCKE".data) = true
    ∧ (∀ (f : Nat) (rest : List Line) (mp pk : Dict) (pv : List Line),
        loopF (f + 1) (("17 PACKSTÜCKE".data) :: rest) mp pk pv = loopF f rest mp pk pv)
    ∧ packHeaderLine ("17 PACKSTUECKE".data) = false
    ∧ parse_segment ("17 PACKSTUECKE".data)
        = some [(posName, .dict []), (unmappedName, .list [("17 PACKSTUECKE".data)])] := by
  have hp : packHeaderLine ("17 PACKSTÜCKE".data) = true := by decide
  refine ⟨hp, by decide, by decide, ?_, by decide, by decide⟩
  intro f rest mp pk pv
  rw [loopF, if_pos hp]

/-- The segment list is empty exactly when the header scan found no
occurrence. -/
theorem split_into_segments_eq_nil_iff (raw : Line) :
    split_into_segments raw = [] ↔ findStarts raw = [] := by
  constructor
  · intro h
    by_cases hs : findStarts raw = []
    · exact hs
    · rw [split_into_segments, if_neg hs] at h
      rcases hfs : findStarts raw with _ | ⟨s, rest⟩
      · rfl
      · rw [hfs] at h; simp [segmentsFrom] at h
  · intro h
    rw [split_into_segments, if_pos h]

/-- One segment per start position. -/
theorem segmentsFrom_length (raw : Line) :
    ∀ ss : List Nat, (segmentsFrom raw ss).length = ss.length := by
  intro ss
  induction ss with
  | nil => rfl
  | cons s rest ih => simp [segmentsFrom, ih]

/-- Segment `i` is the slice of the input from start `i` up to start `i + 1`
(exclusive), the last one running to the end of the input. -/
theorem segmentsFrom_getD (raw : Line) :
    ∀ (ss : List Nat) (i : Nat), i < ss.length →
    (segmentsFrom raw ss).getD i []
      = (raw.drop (ss.getD i 0)).take
          ((if i + 1 < ss.length then ss.getD (i + 1) 0 else raw.length)
            - ss.getD i 0) := by
  intro ss
  induction ss with
  | nil => intro i h; simp at h
  | cons s rest ih =>
    intro i h
    cases i with
    | zero =>
      rcases rest with _ | ⟨t, rest'⟩
      · simp [segmentsFrom]
      · have hc : 0 + 1 < (s :: t :: rest').length := by
          simp only [List.length_cons]; omega
        simp [segmentsFrom, hc]
    | succ i =>
      have hi : i < rest.length := by
        simp only [List.length_cons] at h; omega
      simp only [segmentsFrom, List.getD_cons_succ, List.length_cons,
        Nat.add_lt_add_iff_right]
      exact ih i hi

/-- Claim C3: `parse_articles` raises the structure-not-found error exactly
when the input has no occurrence of the section-header pattern, equivalently
when the Segmenter returns no segment; with at least one occurrence this
check raises nothing (the result is a record list or, on a diverging segment,
no result — never this error, and no partial record list accompanies it). -/
theorem c3_structure_error (raw : Line) :
    (parse_articles raw = some (.error ()) ↔ findStarts raw = [])
    ∧ (split_into_segments raw = [] ↔ findStarts raw = []) := by
  refine ⟨⟨?_, ?_⟩, split_into_segments_eq_nil_iff raw⟩
  · intro h
    by_cases hseg : split_into_segments raw = []
    · exact (split_into_segments_eq_nil_iff raw).mp hseg
    · rw [parse_articles, if_neg hseg] at h
      rcases hm : (split_into_segments raw).mapM parse_segment with _ | recs <;>
        rw [hm] at h <;> simp at h
  · intro h
    rw [parse_articles, if_pos ((split_into_segments_eq_nil_iff raw).mpr h)]

/-- Claim C4: with N occurrences of the section-header pattern the Segmenter
returns exactly N segments, segment `i` being the substring of the input from
the start of occurrence `i` up to the start of occurrence `i + 1` (exclusive),
the final segment extending to the end of the input; with zero occurrences it
returns the empty sequence. -/
theorem c4_segment_spans (raw : Line) :
    (split_into_segments raw = [] ↔ findStarts raw = [])
    ∧ (split_into_segments raw).length = (findStarts raw).length
    ∧ ∀ i : Nat, i < (findStarts raw).length →
      (split_into_segments raw).getD i []
        = (raw.drop ((findStarts raw).getD i 0)).take
            ((if i + 1 < (findStarts raw).length
              then (findStarts raw).getD (i + 1) 0
              else raw.length) - (findStarts raw).getD i 0) := by
  refine ⟨split_into_segments_eq_nil_iff raw, ?_, ?_⟩
  · by_cases hs : findStarts raw = []
    · rw [split_into_segments, if_pos hs, hs]; rfl
    · rw [split_into_segments, if_neg hs, segmentsFrom_length]
  · intro i hi
    have hs : findStarts raw ≠ [] := by
      intro he; rw [he] at hi; simp at hi
    rw [split_into_segments, if_neg hs]
    exact segmentsFrom_getD raw _ i hi

/-- Witness for C4 on an input with two header occurrences. -/
theorem c4_segment_spans_witness :
    (split_into_segments ("17 POSITIONSDATEN\nx\n17 POSITIONSDATEN".data)).length
        = (findStarts ("17 POSITIONSDATEN\nx\n17 POSITIONSDATEN".data)).length
    ∧ (0 < (findStarts ("17 POSITIONSDATEN\nx\n17 POSITIONSDATEN".data)).length
      ∧ (split_into_segments ("17 POSITIONSDATEN\nx\n17 POSITIONSDATEN".data)).getD 0 []
          = (("17 POSITIONSDATEN\nx\n17 POSITIONSDATEN".data).drop
              ((findStarts ("17 POSITIONSDATEN\nx\n17 POSITIONSDATEN".data)).getD 0 0)).take
              ((if 0 + 1 < (findStarts ("17 POSITIONSDATEN\nx\n17 POSITIONSDATEN".data)).length
                then (findStarts ("17 POSITIONSDATEN\nx\n17 POSITIONSDATEN".data)).getD (0 + 1) 0
                else ("17 POSITIONSDATEN\nx\n17 POSITIONSDATEN".data).length)
                - (findStarts ("17 POSITIONSDATEN\nx\n17 POSITIONSDATEN".data)).getD 0 0)) :=
  ⟨(c4_segment_spans ("17 POSITIONSDATEN\nx\n17 POSITIONSDATEN".data)).2.1,
    by decide,
    (c4_segment_spans ("17 POSITIONSDATEN\nx\n17 POSITIONSDATEN".data)).2.2 0 (by decide)⟩

/-- Claim C9: in this embedding the Segmenter and the segment parser are pure
functions — they keep no state across calls — so the whole parse of a
document is the segmenter followed by an independent map of `parse_segment`
over the segments, a function of the raw input alone; and two calls on the
same segment inside one batch, however far apart, yield the same result. -/
theorem c9_purity :
    (∀ raw : Line, parse_articles raw
        = if split_into_segments raw = [] then some (.error ())
          else ((split_into_segments raw).mapM parse_segment).map Except.ok)
    ∧ ∀ (pre post : List Line) (seg : Line),
      ((pre ++ seg :: (post ++ [seg])).map parse_segment)[pre.length]?
          = some (parse_segment seg)
      ∧ ((pre ++ seg :: (post ++ [seg])).map parse_segment)[pre.length + 1 + post.length]?
          = some (parse_segment seg) := by
  refine ⟨fun raw => rfl, fun pre post seg => ⟨?_, ?_⟩⟩
  · rw [List.map_append]
    rw [List.getElem?_append_right (by simp)]
    simp
  · rw [List.map_append]
    rw [List.getElem?_append_right (by simp only [List.length_map]; omega)]
    simp only [List.length_map, List.map_cons]
    have h1 : pre.length + 1 + post.length - pre.length = post.length + 1 := by omega
    rw [h1, List.getElem?_cons_succ, List.map_append]
    rw [List.getElem?_append_right (by simp)]
    simp

end EvdPdf
